import Mathlib

/-!
Verification of the per-conversation queue manager, response renderer and
message formatter of the slack-vibecoder repository.

JavaScript strings are modelled as lists of characters (`Str`).  Stateful
classes are modelled by explicit state passing: each method becomes a pure
function from the old state (plus inputs and, where the method talks to the
chat client, an oracle describing the outcome of each chat call) to the new
state together with the list of chat-client effects it performs.
-/

set_option maxRecDepth 8000

namespace Vibecoder

/-- JavaScript strings, modelled as lists of characters. -/
abbrev Str := List Char

/-- The whitespace class used by JavaScript `trim`/`trimStart`/`trimEnd`
(WhiteSpace plus LineTerminator code points). -/
def isJsWhitespace (c : Char) : Bool :=
  c = ' ' || c = '\t' || c = '\n' || c = '\r' ||
  c = '\u000b' || c = '\u000c' || c = '\u00a0' ||
  c = '\u2028' || c = '\u2029' || c = '\ufeff'

/-- JavaScript `String.prototype.trimStart`. -/
def jsTrimStart (l : Str) : Str := l.dropWhile isJsWhitespace

/-- JavaScript `String.prototype.trimEnd`. -/
def jsTrimEnd (l : Str) : Str := (l.reverse.dropWhile isJsWhitespace).reverse

/-- JavaScript `String.prototype.trim`. -/
def jsTrim (l : Str) : Str := jsTrimStart (jsTrimEnd l)

/-- Embedding of `s.lastIndexOf(c, pos)` for a one-character needle: the greatest index
`i ≤ pos` at which `c` occurs, `none` when there is none (JS returns -1). -/
def lastIdxLe (l : Str) (c : Char) (pos : Nat) : Option Nat :=
  ((List.range (pos + 1)).filter (fun i => l.get? i = some c)).getLast?

/-! ## slack-message.ts -/

/-- Embedding of `MAX_TEXT_LENGTH` from slack-message.ts. -/
def MAX_TEXT_LENGTH : Nat := 2500

/-- Embedding of `getUserMention` from slack-message.ts. -/
def getUserMention (userId : Str) : Str :=
  if userId = "unknown".toList then [] else
    "<@".toList ++ userId ++ ">".toList

/-- Embedding of `formatDuration` from slack-message.ts. -/
def formatDuration (seconds : Nat) : Str :=
  let minutes := seconds / 60
  let secs := seconds % 60
  if minutes > 0 then
    (toString minutes).toList ++ "분 ".toList ++ (toString secs).toList ++ "초".toList
  else
    (toString secs).toList ++ "초".toList

/-- Embedding of `truncateForSlack` from slack-message.ts. -/
def truncateForSlack (text : Str) (maxLength : Nat) : Str :=
  if text.length ≤ maxLength then text
  else text.take maxLength ++ "...".toList

/-- The split index chosen by one iteration of the `splitTextForSlack` loop:
the last newline at index `≤ max` if it lies at or beyond `max * 0.5`,
otherwise the last space under the same rule, otherwise a hard cut at `max`.
(`splitIndex < maxLength * 0.5` over the integers, with -1 for a failed
search, is `¬ (max ≤ 2 * i)`.) -/
def pickSpaceIndex (remaining : Str) (max : Nat) : Nat :=
  match lastIdxLe remaining ' ' max with
  | some j => if max ≤ 2 * j then j else max
  | none => max

def pickSplitIndex (remaining : Str) (max : Nat) : Nat :=
  match lastIdxLe remaining '\n' max with
  | some i => if max ≤ 2 * i then i else pickSpaceIndex remaining max
  | none => pickSpaceIndex remaining max

/-- The `while` loop of `splitTextForSlack`, with explicit fuel.  Each
iteration strictly shrinks `remaining` whenever `0 < max`, so any
`fuel ≥ remaining.length` computes the loop's result. -/
def splitGo (max : Nat) : Nat → Str → List Str
  | 0, _ => []
  | fuel + 1, remaining =>
    if remaining.length = 0 then []
    else if remaining.length ≤ max then [remaining]
    else
      let si := pickSplitIndex remaining max
      jsTrimEnd (remaining.take si) ::
        splitGo max fuel (jsTrimStart (remaining.drop si))

/-- Embedding of `splitTextForSlack` from slack-message.ts. -/
def splitTextForSlack (text : Str) (maxLength : Nat) : List Str :=
  if text.length ≤ maxLength then [text]
  else splitGo maxLength text.length text

/-! ## Slack Block Kit payloads (slack-message.ts block builders) -/

/-- An element of a Slack block: a `mrkdwn` text element (in context blocks)
or a button (in actions blocks; its inner `plain_text` label is `label`). -/
inductive BlockElem : Type
  | mrkdwn (text : Str)
  | button (label : Str) (actionId : Str) (value : Str)
  deriving DecidableEq, Repr

/-- A Slack block as built by slack-message.ts: a `context` block holding
elements, a `section` block (`sect`) holding one mrkdwn text, or an
`actions` block holding buttons. -/
inductive Block : Type
  | context (elements : List BlockElem)
  | sect (text : Str)
  | actions (elements : List BlockElem)
  deriving DecidableEq, Repr

/-- A full message payload: blocks plus fallback text (`MessageBlocks`). -/
structure Msg where
  blocks : List Block
  fallbackText : Str
  deriving DecidableEq, Repr

/-- Embedding of `buildMetadataBlock` from slack-message.ts.  `getVersionInfoText` reads
the deployment environment (app-info.ts, not part of the core), so the
version string is a parameter `versionInfo`. -/
def buildMetadataBlock (timeStr : Str) (toolCallCount : Nat) (status : Str)
    (versionInfo : Str) : Block :=
  Block.context [BlockElem.mrkdwn
    ("_".toList ++ timeStr ++ " ".toList ++ status ++ ", 도구 ".toList ++
      (toString toolCallCount).toList ++ "회 호출".toList ++ versionInfo ++ "_".toList)]

/-- Embedding of `buildTextBlock` from slack-message.ts. -/
def buildTextBlock (text : Str) : Block := Block.sect text

/-- Embedding of `buildStopButtonBlock` from slack-message.ts. -/
def buildStopButtonBlock (threadTs : Str) : Block :=
  Block.actions [BlockElem.button "🛑 멈춰!".toList "stop_claude".toList threadTs]

/-- Embedding of `buildProgressMessage` from slack-message.ts. -/
def buildProgressMessage (userId threadTs : Str) (text : Str)
    (toolInfo : Option Str) (elapsedSeconds : Nat) (toolCallCount : Nat)
    (versionInfo : Str) : Msg :=
  let userMention := getUserMention userId
  let timeStr := formatDuration elapsedSeconds
  let toolInfoText :=
    match toolInfo with
    | some ti => if ti = [] then [] else ti ++ "\n\n".toList
    | none => []
  let userTag :=
    if userMention ≠ [] then userMention ++ " ⏳ 작업 중...".toList
    else "⏳ 작업 중...".toList
  let overhead := userTag.length + toolInfoText.length + 10
  let maxTextLength := MAX_TEXT_LENGTH - overhead
  let truncatedText := truncateForSlack text maxTextLength
  let messageText := userTag ++ "\n\n".toList ++ toolInfoText ++ "> ".toList ++ truncatedText
  { blocks := [buildMetadataBlock timeStr toolCallCount "경과".toList versionInfo,
      buildTextBlock messageText, buildStopButtonBlock threadTs],
    fallbackText :=
      if userMention ≠ [] then userMention ++ " 작업 중...".toList
      else "작업 중...".toList }

/-- Result of `buildResultMessage`: the first-chunk message plus the
remaining chunks to be posted as follow-up messages. -/
structure ResultMsg where
  firstMessage : Msg
  additionalChunks : List Str
  deriving DecidableEq, Repr

/-- Embedding of `buildResultMessage` from slack-message.ts. -/
def buildResultMessage (userId : Str) (text : Str) (durationSeconds : Nat)
    (toolCallCount : Nat) (versionInfo : Str) : ResultMsg :=
  let userMention := getUserMention userId
  let timeStr := formatDuration durationSeconds
  let overhead := userMention.length + 10
  let maxChunkLength := MAX_TEXT_LENGTH - overhead
  let chunks := splitTextForSlack text maxChunkLength
  let firstChunkText :=
    if userMention ≠ [] then userMention ++ "\n\n".toList ++ chunks.headD []
    else chunks.headD []
  { firstMessage :=
      { blocks := [buildMetadataBlock timeStr toolCallCount "소요".toList versionInfo,
          buildTextBlock firstChunkText],
        fallbackText :=
          if userMention ≠ [] then
            userMention ++ " ".toList ++ text.take 100 ++ "...".toList
          else text.take 100 ++ "...".toList },
    additionalChunks := chunks.drop 1 }

/-- Embedding of `buildErrorMessage` from slack-message.ts. -/
def buildErrorMessage (userId : Str) (errorMessage : Str) : Msg :=
  let userMention := getUserMention userId
  let truncatedError := errorMessage.take 500
  let text :=
    if userMention ≠ [] then
      userMention ++ " ❌ 오류가 발생했습니다:\n```".toList ++ truncatedError ++ "```".toList
    else
      "❌ 오류가 발생했습니다:\n```".toList ++ truncatedError ++ "```".toList
  { blocks := [buildTextBlock text],
    fallbackText :=
      if userMention ≠ [] then userMention ++ " 오류가 발생했습니다.".toList
      else "오류가 발생했습니다.".toList }

/-- Embedding of `buildAbortedMessage` from slack-message.ts. -/
def buildAbortedMessage (userId : Str) : Msg :=
  let text := jsTrim (getUserMention userId ++ " ⏹️ 작업이 중단되었습니다.".toList)
  { blocks := [buildTextBlock text],
    fallbackText := "작업이 중단되었습니다.".toList }

/-! ## ThreadQueueManager (thread-queue.ts)

All operations of `ThreadQueueManager` act on the state stored for one
conversation key (`threadTs`); distinct keys are fully independent.  The
per-key entry of the manager's `threads` map is modelled as an
`Option (ThreadState H)` (`none` = key absent), and every method becomes a
function from that entry to its result paired with the updated entry.
`H` is the type of the opaque `ResponseHandler` references the manager
stores. -/

/-- Embedding of `QueuedMessage.status`. -/
inductive MsgStatus : Type
  | queued
  | cancelled
  deriving DecidableEq, Repr

/-- Embedding of `QueuedMessage` from thread-queue.ts (`queuedAt` as epoch milliseconds). -/
structure QueuedMessage : Type where
  id : String
  userQuery : String
  userId : String
  channel : String
  responseTs : String
  queuedAt : Nat
  status : MsgStatus
  deriving DecidableEq, Repr

/-- Embedding of `ThreadState` from thread-queue.ts. -/
structure ThreadState (H : Type) : Type where
  isProcessing : Bool
  currentHandler : Option H
  currentMessageId : Option String
  queue : List QueuedMessage
  deriving DecidableEq, Repr

variable {H : Type}

/-- The fresh state built by `getOrCreateState` for an absent key. -/
def emptyThreadState : ThreadState H :=
  { isProcessing := false, currentHandler := none,
    currentMessageId := none, queue := [] }

/-- Embedding of `getOrCreateState`: the per-key entry after the lookup-or-insert. -/
def getOrCreateState (st : Option (ThreadState H)) : ThreadState H :=
  st.getD emptyThreadState

/-- Embedding of `isProcessing(threadTs)`: `state?.isProcessing ?? false`. -/
def isProcessingQuery (st : Option (ThreadState H)) : Bool :=
  (st.map (·.isProcessing)).getD false

/-- Embedding of `getCurrentHandler(threadTs)`: `state?.currentHandler ?? null`. -/
def getCurrentHandler (st : Option (ThreadState H)) : Option H :=
  (st.map (·.currentHandler)).getD none

/-- Embedding of `getCurrentMessageId(threadTs)`: `state?.currentMessageId ?? null`. -/
def getCurrentMessageId (st : Option (ThreadState H)) : Option String :=
  (st.map (·.currentMessageId)).getD none

/-- The queue stored for a key (empty for an absent key). -/
def queueOf (st : Option (ThreadState H)) : List QueuedMessage :=
  (st.map (·.queue)).getD []

/-- Embedding of `tryStartProcessing(threadTs, handler, messageId)` from thread-queue.ts. -/
def tryStartProcessing (st : Option (ThreadState H)) (handler : H)
    (messageId : String) : Bool × Option (ThreadState H) :=
  let s := getOrCreateState st
  if s.isProcessing then (false, some s)
  else (true, some { s with
    isProcessing := true
    currentHandler := some handler
    currentMessageId := some messageId })

/-- The `while` loop of `finishProcessing`: repeatedly `shift()` entries,
returning the first one whose status is `queued` together with the queue
left behind; if none is queued the whole queue is drained. -/
def takeNextQueued : List QueuedMessage → Option QueuedMessage × List QueuedMessage
  | [] => (none, [])
  | m :: rest =>
    if m.status = MsgStatus.queued then (some m, rest) else takeNextQueued rest

/-- Embedding of `finishProcessing(threadTs)` from thread-queue.ts. -/
def finishProcessing (st : Option (ThreadState H)) :
    Option QueuedMessage × Option (ThreadState H) :=
  match st with
  | none => (none, none)
  | some s =>
    let r := takeNextQueued s.queue
    (r.1, some { s with
      isProcessing := false
      currentHandler := none
      currentMessageId := none
      queue := r.2 })

/-- Embedding of `enqueue(threadTs, message)` from thread-queue.ts: push to the tail and
return `state.queue.length` (the queue's total length after the push). -/
def enqueue (st : Option (ThreadState H)) (message : QueuedMessage) :
    Nat × Option (ThreadState H) :=
  let s := getOrCreateState st
  (s.queue.length + 1, some { s with queue := s.queue ++ [message] })

/-- The `find`-then-mutate of `cancelQueued`: locate the first entry with the
given id; if its status is `queued` flip it to `cancelled` in place. -/
def cancelInQueue (messageId : String) :
    List QueuedMessage → Bool × List QueuedMessage
  | [] => (false, [])
  | m :: rest =>
    if m.id = messageId then
      if m.status = MsgStatus.queued then
        (true, { m with status := MsgStatus.cancelled } :: rest)
      else (false, m :: rest)
    else
      let r := cancelInQueue messageId rest
      (r.1, m :: r.2)

/-- Embedding of `cancelQueued(threadTs, messageId)` from thread-queue.ts. -/
def cancelQueued (st : Option (ThreadState H)) (messageId : String) :
    Bool × Option (ThreadState H) :=
  match st with
  | none => (false, none)
  | some s =>
    let r := cancelInQueue messageId s.queue
    (r.1, some { s with queue := r.2 })

/-- The `findIndex`-and-`splice` of `prioritize`: remove and return the first
entry with the given id whose status is still `queued`. -/
def extractQueued (messageId : String) :
    List QueuedMessage → Option QueuedMessage × List QueuedMessage
  | [] => (none, [])
  | m :: rest =>
    if m.id = messageId ∧ m.status = MsgStatus.queued then (some m, rest)
    else
      let r := extractQueued messageId rest
      (r.1, m :: r.2)

/-- Embedding of `prioritize(threadTs, messageId)` from thread-queue.ts. -/
def prioritize (st : Option (ThreadState H)) (messageId : String) :
    Option QueuedMessage × Option (ThreadState H) :=
  match st with
  | none => (none, none)
  | some s =>
    let r := extractQueued messageId s.queue
    match r.1 with
    | none => (none, some s)
    | some m => (some m, some { s with queue := r.2 })

/-- Embedding of `getQueueLength(threadTs)` from thread-queue.ts: only non-cancelled
entries are counted. -/
def getQueueLength (st : Option (ThreadState H)) : Nat :=
  match st with
  | none => 0
  | some s => (s.queue.filter (fun m => m.status = MsgStatus.queued)).length

/-! ## ResponseHandler (response-handler.ts)

The mutable fields of one `ResponseHandler` form `RState`; the immutable
constructor fields (`userId`, `threadTs`) and the environment-derived
version string are passed as arguments.  Each method returns the updated
state together with the list of chat-client calls it makes.  Where a method
branches on the success of a chat call, the call outcomes are supplied by a
boolean oracle argument. -/

/-- The mutable state of a `ResponseHandler`.  `timerOn` models whether the
`setInterval` metadata timer is currently registered. -/
structure RState : Type where
  responseTs : Option Str
  lastBlocks : List Block
  lastFallbackText : Str
  isCompleted : Bool
  timerOn : Bool
  deriving DecidableEq, Repr

/-- One chat-client interaction (or log emission) performed by a renderer
method, in program order.  `update`/`post` are `chat.update`/
`chat.postMessage` calls, `sched` is the delayed re-update scheduled by
`showResult`, and `logSuccess` is the emission of the fixed
`TURNAROUND_SUCCESS` marker to the logs. -/
inductive Eff : Type
  | update (ts : Str) (text : Str) (blocks : List Block)
  | post (text : Str) (blocks : List Block)
  | sched (ts : Str) (text : Str) (blocks : List Block)
  | logSuccess
  deriving DecidableEq, Repr

/-- Drop one leading occurrence of `c` (the `분?` / `초?` of the regex). -/
def dropLead (c : Char) : Str → Str
  | [] => []
  | x :: t => if x = c then t else x :: t

/-- Match `(경과|소요)` at the head: returns the captured status word and the
remainder after it. -/
def statusTail : Str → Option (Str × Str)
  | '경' :: '과' :: rest => some ("경과".toList, rest)
  | '소' :: '요' :: rest => some ("소요".toList, rest)
  | _ => none

/-- The anchored time pattern of `updateMetadataOnly`'s regex
`^_\d+분?\s*\d*초?\s*(경과|소요)`: on a match, returns the captured status
word (`경과` or `소요`) and the remainder of the text after the match. -/
def parseTimePat (l : Str) : Option (Str × Str) :=
  match l with
  | [] => none
  | c :: r =>
    if c = '_' then
      if (r.takeWhile Char.isDigit).isEmpty then none
      else
        statusTail ((dropLead '초'
          (((dropLead '분' (r.dropWhile Char.isDigit)).dropWhile
            isJsWhitespace).dropWhile Char.isDigit)).dropWhile isJsWhitespace)
    else none

/-- Embedding of `text.replace(/^_\d+분?\s*\d*초?\s*(경과|소요)/, _timeStr $1)`: replace
the matched time prefix, leaving the rest of the text untouched (and the
whole text untouched when the pattern does not match). -/
def replaceTime (timeStr : Str) (text : Str) : Str :=
  match parseTimePat text with
  | none => text
  | some r => '_' :: (timeStr ++ (' ' :: (r.1 ++ r.2)))

/-- The element rewrite of `updateMetadataOnly`: only `mrkdwn` elements have
their text run through the time replacement. -/
def patchElem (timeStr : Str) : BlockElem → BlockElem
  | BlockElem.mrkdwn t => BlockElem.mrkdwn (replaceTime timeStr t)
  | e => e

/-- The block rewrite of `updateMetadataOnly`: only `context` blocks have
their elements patched. -/
def patchBlock (timeStr : Str) : Block → Block
  | Block.context es => Block.context (es.map (patchElem timeStr))
  | b => b

/-- Embedding of `updateMetadataOnly` from response-handler.ts.  `elapsed` is the computed
elapsed seconds; `ok` is the outcome of the `chat.update` call (on failure
the method stops its timer). -/
def updateMetadataOnly (s : RState) (elapsed : Nat) (ok : Bool) :
    RState × Option Eff :=
  match s.responseTs with
  | none => (s, none)
  | some ts =>
    if s.lastBlocks.length = 0 then (s, none)
    else if s.isCompleted then (s, none)
    else
      let timeStr := formatDuration elapsed
      let blocks := s.lastBlocks.map (patchBlock timeStr)
      (if ok then s else { s with timerOn := false },
        some (Eff.update ts s.lastFallbackText blocks))

/-- Embedding of `updateProgress` from response-handler.ts (failure of the `chat.update`
is only logged, so no oracle is needed). -/
def updateProgress (s : RState) (userId threadTs versionInfo : Str)
    (text : Str) (toolInfo : Option Str) (elapsedSeconds toolCallCount : Nat) :
    RState × List Eff :=
  match s.responseTs with
  | none => (s, [])
  | some ts =>
    if s.isCompleted then (s, [])
    else
      let m := buildProgressMessage userId threadTs text toolInfo
        elapsedSeconds toolCallCount versionInfo
      ({ s with lastBlocks := m.blocks, lastFallbackText := m.fallbackText },
        [Eff.update ts m.fallbackText m.blocks])

/-- The chunk-posting loop of `showResult`.  `i` is the oracle index of the
next chat call; on a failed post the error payload is rendered on the
primary message and the remaining chunks are abandoned.  Returns the
effects performed and whether every post succeeded. -/
def resultChunkLoop (ts : Str) (errM : Msg) (oks : Nat → Bool) :
    Nat → List Str → List Eff × Bool
  | _, [] => ([], true)
  | i, c :: rest =>
    let e := Eff.post c [buildTextBlock c]
    if oks i then
      let r := resultChunkLoop ts errM oks (i + 1) rest
      (e :: r.1, r.2)
    else (e :: [Eff.update ts errM.fallbackText errM.blocks], false)

/-- Embedding of `showResult` from response-handler.ts.  `oks n` is the outcome of the
n-th chat call (0 = the first-chunk `chat.update`, then one per additional
chunk posted); `errText` is the message of the error thrown by a failing
chat call, used to build the fallback error payload. -/
def showResult (s : RState) (userId versionInfo errText : Str) (text : Str)
    (durationSeconds toolCallCount : Nat) (oks : Nat → Bool) :
    RState × List Eff :=
  let s1 := { s with isCompleted := true, timerOn := false }
  match s.responseTs with
  | none => (s1, [])
  | some ts =>
    let r := buildResultMessage userId text durationSeconds toolCallCount versionInfo
    let s2 := { s1 with
      lastBlocks := r.firstMessage.blocks
      lastFallbackText := r.firstMessage.fallbackText }
    let errM := buildErrorMessage userId errText
    let e0 := Eff.update ts r.firstMessage.fallbackText r.firstMessage.blocks
    if oks 0 then
      let lp := resultChunkLoop ts errM oks 1 r.additionalChunks
      if lp.2 then
        (s2, e0 :: lp.1 ++
          [Eff.sched ts r.firstMessage.fallbackText r.firstMessage.blocks,
            Eff.logSuccess])
      else (s2, e0 :: lp.1)
    else (s2, e0 :: [Eff.update ts errM.fallbackText errM.blocks])

/-- Embedding of `showError` from response-handler.ts.  `ok` is the outcome of the error
`chat.update`; on failure one minimal text-only update is attempted. -/
def showError (s : RState) (userId : Str) (errMessage : Str) (ok : Bool) :
    RState × List Eff :=
  let s1 := { s with isCompleted := true, timerOn := false }
  match s.responseTs with
  | none => (s1, [])
  | some ts =>
    let m := buildErrorMessage userId errMessage
    let s2 := { s1 with lastBlocks := m.blocks, lastFallbackText := m.fallbackText }
    let e1 := Eff.update ts m.fallbackText m.blocks
    if ok then (s2, [e1])
    else (s2, e1 :: [Eff.update ts
      (jsTrim (getUserMention userId ++ " 오류 발생 (상세 표시 실패)".toList)) []])

/-- Embedding of `showAborted` from response-handler.ts: stops the timer and, when a
message handle exists, updates the message with the aborted payload.  It
neither checks nor sets `isCompleted`, and does not touch the last-payload
snapshot. -/
def showAborted (s : RState) (userId : Str) : RState × List Eff :=
  let s1 := { s with timerOn := false }
  match s.responseTs with
  | none => (s1, [])
  | some ts =>
    let m := buildAbortedMessage userId
    (s1, [Eff.update ts m.fallbackText m.blocks])

/-! ## Auxiliary definitions used by the claim statements -/

/-- Whether a queued message is still live (status `queued`). -/
def isQueuedB (m : QueuedMessage) : Bool := decide (m.status = MsgStatus.queued)

/-- A sequence of `tryStartProcessing` calls on one key, with no intervening
`finishProcessing`: returns the list of boolean results in order. -/
def runAdmits : Option (ThreadState H) → List (H × String) → List Bool
  | _, [] => []
  | st, c :: rest =>
    (tryStartProcessing st c.1 c.2).1 ::
      runAdmits (tryStartProcessing st c.1 c.2).2 rest

/-- Sample queue entries used in concrete counterexamples and witnesses. -/
def sampleMsg (i : String) (st : MsgStatus) : QueuedMessage :=
  { id := i, userQuery := "q", userId := "u", channel := "c",
    responseTs := "t", queuedAt := 0, status := st }

/-! ## Lemmas about the queue manager -/

theorem takeNextQueued_eq (q : List QueuedMessage) :
    takeNextQueued q = ((q.dropWhile (fun m => !isQueuedB m)).head?,
      (q.dropWhile (fun m => !isQueuedB m)).tail) := by
  induction q with
  | nil => rfl
  | cons m rest ih =>
    by_cases hs : m.status = MsgStatus.queued
    · simp [takeNextQueued, List.dropWhile, hs, isQueuedB]
    · simpa [takeNextQueued, List.dropWhile, hs, isQueuedB] using ih

theorem filter_head_eq_dropWhile_head (q : List QueuedMessage) :
    (q.filter isQueuedB).head? = (q.dropWhile (fun m => !isQueuedB m)).head? := by
  induction q with
  | nil => rfl
  | cons m rest ih =>
    by_cases hs : isQueuedB m = true
    · simp [List.filter, List.dropWhile, hs]
    · simp only [Bool.not_eq_true] at hs
      simpa [List.filter, List.dropWhile, hs] using ih

theorem filter_dropWhile_tail (q : List QueuedMessage) :
    ((q.dropWhile (fun m => !isQueuedB m)).tail).filter isQueuedB =
      (q.filter isQueuedB).tail := by
  induction q with
  | nil => rfl
  | cons m rest ih =>
    by_cases hs : isQueuedB m = true
    · simp [List.filter, List.dropWhile, hs]
    · simp only [Bool.not_eq_true] at hs
      simpa [List.filter, List.dropWhile, hs] using ih

theorem tryStartProcessing_busy (st : Option (ThreadState H))
    (hb : (getOrCreateState st).isProcessing = true) (hd : H) (mid : String) :
    tryStartProcessing st hd mid = (false, some (getOrCreateState st)) := by
  simp [tryStartProcessing, hb]

theorem runAdmits_busy (calls : List (H × String)) :
    ∀ st : Option (ThreadState H), (getOrCreateState st).isProcessing = true →
      (runAdmits st calls).count true = 0 := by
  induction calls with
  | nil => intro st _; rfl
  | cons c rest ih =>
    intro st hb
    rw [runAdmits, tryStartProcessing_busy st hb c.1 c.2]
    have : (getOrCreateState (some (getOrCreateState st))).isProcessing = true := hb
    simp [List.count_cons, ih _ this]

theorem extractQueued_none_iff (mid : String) (q : List QueuedMessage) :
    (extractQueued mid q).1 = none ↔
      ∀ m ∈ q, ¬(m.id = mid ∧ m.status = MsgStatus.queued) := by
  induction q with
  | nil => simp [extractQueued]
  | cons m rest ih =>
    by_cases hm : m.id = mid ∧ m.status = MsgStatus.queued
    · simp [extractQueued, hm]
    · simp only [extractQueued, if_neg hm]
      constructor
      · intro h x hx
        rcases List.mem_cons.mp hx with rfl | hx
        · exact hm
        · exact (ih.mp h) x hx
      · intro h
        exact ih.mpr fun x hx => h x (List.mem_cons.mpr (Or.inr hx))

theorem extractQueued_some (mid : String) (q : List QueuedMessage)
    (j : QueuedMessage) (h : (extractQueued mid q).1 = some j) :
    j.id = mid ∧ j.status = MsgStatus.queued ∧
      ∃ pre suf, q = pre ++ j :: suf ∧ (extractQueued mid q).2 = pre ++ suf ∧
        ∀ m ∈ pre, ¬(m.id = mid ∧ m.status = MsgStatus.queued) := by
  induction q with
  | nil => simp [extractQueued] at h
  | cons m rest ih =>
    by_cases hm : m.id = mid ∧ m.status = MsgStatus.queued
    · simp only [extractQueued, if_pos hm, Option.some.injEq] at h
      subst h
      exact ⟨hm.1, hm.2, [], rest, by simp [extractQueued, hm]⟩
    · simp only [extractQueued, if_neg hm] at h
      obtain ⟨h1, h2, pre, suf, hq, hrest, hpre⟩ := ih h
      refine ⟨h1, h2, m :: pre, suf, by simp [hq], ?_, ?_⟩
      · simp [extractQueued, if_neg hm, hrest]
      · intro x hx
        rcases List.mem_cons.mp hx with rfl | hx
        · exact hm
        · exact hpre x hx

theorem cancelInQueue_false (mid : String) (q : List QueuedMessage)
    (h : (cancelInQueue mid q).1 = false) : (cancelInQueue mid q).2 = q := by
  induction q with
  | nil => rfl
  | cons m rest ih =>
    by_cases hid : m.id = mid
    · by_cases hs : m.status = MsgStatus.queued
      · simp [cancelInQueue, hid, hs] at h
      · simp [cancelInQueue, hid, hs]
    · simp only [cancelInQueue, if_neg hid] at h ⊢
      simp [ih h]

theorem cancelInQueue_true (mid : String) (q : List QueuedMessage)
    (h : (cancelInQueue mid q).1 = true) :
    ∃ pre m suf, q = pre ++ m :: suf ∧ m.id = mid ∧
      m.status = MsgStatus.queued ∧ (∀ x ∈ pre, x.id ≠ mid) ∧
      (cancelInQueue mid q).2 =
        pre ++ { m with status := MsgStatus.cancelled } :: suf := by
  induction q with
  | nil => simp [cancelInQueue] at h
  | cons m rest ih =>
    by_cases hid : m.id = mid
    · by_cases hs : m.status = MsgStatus.queued
      · exact ⟨[], m, rest, by simp, hid, hs, by simp, by simp [cancelInQueue, hid, hs]⟩
      · simp [cancelInQueue, hid, hs] at h
    · simp only [cancelInQueue, if_neg hid] at h
      obtain ⟨pre, x, suf, hq, h1, h2, hpre, hres⟩ := ih h
      refine ⟨m :: pre, x, suf, by simp [hq], h1, h2, ?_, ?_⟩
      · intro y hy
        rcases List.mem_cons.mp hy with rfl | hy
        · exact hid
        · exact hpre y hy
      · simp [cancelInQueue, if_neg hid, hres]

theorem cancelInQueue_true_iff (mid : String) (q : List QueuedMessage)
    (hnd : (q.map (·.id)).Nodup) :
    (cancelInQueue mid q).1 = true ↔
      ∃ m ∈ q, m.id = mid ∧ m.status = MsgStatus.queued := by
  revert hnd
  induction q with
  | nil => intro _; simp [cancelInQueue]
  | cons x rest ih =>
    intro hnd
    simp only [List.map_cons, List.nodup_cons] at hnd
    by_cases hid : x.id = mid
    · by_cases hs : x.status = MsgStatus.queued
      · apply iff_of_true
        · simp [cancelInQueue, hid, hs]
        · exact ⟨x, List.mem_cons_self x rest, hid, hs⟩
      · apply iff_of_false
        · simp [cancelInQueue, hid, hs]
        · rintro ⟨m, hm, h1, h2⟩
          rcases List.mem_cons.mp hm with rfl | hm
          · exact hs h2
          · exact hnd.1 (hid ▸ List.mem_map.mpr ⟨m, hm, h1⟩)
    · simp only [cancelInQueue, if_neg hid]
      rw [ih hnd.2]
      constructor
      · rintro ⟨m, hm, h1, h2⟩
        exact ⟨m, List.mem_cons.mpr (Or.inr hm), h1, h2⟩
      · rintro ⟨m, hm, h1, h2⟩
        rcases List.mem_cons.mp hm with rfl | hm
        · exact absurd h1 hid
        · exact ⟨m, hm, h1, h2⟩

theorem takeNextQueued_fst_mem (q : List QueuedMessage) (x : QueuedMessage)
    (h : (takeNextQueued q).1 = some x) : x ∈ q := by
  induction q with
  | nil => simp [takeNextQueued] at h
  | cons m rest ih =>
    by_cases hs : m.status = MsgStatus.queued
    · simp only [takeNextQueued, if_pos hs, Option.some.injEq] at h
      exact h ▸ List.mem_cons_self m rest
    · simp only [takeNextQueued, if_neg hs] at h
      exact List.mem_cons.mpr (Or.inr (ih h))

theorem not_mem_middle_of_nodup_ids (pre suf : List QueuedMessage)
    (j : QueuedMessage)
    (hnd : ((pre ++ j :: suf).map (·.id)).Nodup) : j ∉ pre ++ suf := by
  intro hj
  rw [List.map_append, List.map_cons] at hnd
  obtain ⟨_, hnd2, hdisj⟩ := List.nodup_append.mp hnd
  rcases List.mem_append.mp hj with hj | hj
  · exact hdisj (List.mem_map.mpr ⟨j, hj, rfl⟩) (List.mem_cons_self _ _)
  · exact (List.nodup_cons.mp hnd2).1 (List.mem_map.mpr ⟨j, hj, rfl⟩)

theorem runAdmits_count_le_one :
    ∀ (calls : List (H × String)) (st : Option (ThreadState H)),
      (runAdmits st calls).count true ≤ 1 := by
  intro calls
  induction calls with
  | nil => intro st; simp [runAdmits]
  | cons c rest ih =>
    intro st
    by_cases hb : (getOrCreateState st).isProcessing = true
    · have h0 := runAdmits_busy (c :: rest) st hb
      omega
    · have hb' : (getOrCreateState st).isProcessing = false := by
        simpa using hb
      have ht : tryStartProcessing st c.1 c.2 =
          (true, some { getOrCreateState st with
            isProcessing := true
            currentHandler := some c.1
            currentMessageId := some c.2 }) := by
        simp [tryStartProcessing, hb']
      rw [runAdmits, ht]
      have hbusy : (getOrCreateState (some { getOrCreateState st with
          isProcessing := true
          currentHandler := some c.1
          currentMessageId := some c.2 } : Option (ThreadState H))).isProcessing = true := rfl
      have h0 := runAdmits_busy rest _ hbusy
      simp [List.count_cons, h0]

/-! ## Claim theorems -/

/-- C1: in any sequence of `tryStartProcessing` calls on one key with no
intervening `finishProcessing`, at most one call returns true; a true call
atomically marks the key busy and records the handler and message id, and a
false call leaves the key's state unchanged. -/
theorem claim1_tryAdmit_at_most_one (st : Option (ThreadState H))
    (calls : List (H × String)) :
    (runAdmits st calls).count true ≤ 1
  ∧ (∀ hd mid st₁, tryStartProcessing st hd mid = (true, st₁) →
      st₁ = some { getOrCreateState st with
        isProcessing := true
        currentHandler := some hd
        currentMessageId := some mid })
  ∧ (∀ hd mid st₁, tryStartProcessing st hd mid = (false, st₁) → st₁ = st) := by
  refine ⟨runAdmits_count_le_one calls st, ?_, ?_⟩
  · intro hd mid st₁ h
    by_cases hb : (getOrCreateState st).isProcessing = true
    · simp [tryStartProcessing, hb] at h
    · have hb' : (getOrCreateState st).isProcessing = false := by simpa using hb
      simp only [tryStartProcessing, hb', Bool.false_eq_true, if_false,
        Prod.mk.injEq, true_and] at h
      exact h.symm
  · intro hd mid st₁ h
    by_cases hb : (getOrCreateState st).isProcessing = true
    · simp only [tryStartProcessing, hb, if_true, Prod.mk.injEq, true_and] at h
      cases st with
      | none => simp [getOrCreateState, emptyThreadState] at hb
      | some s => exact h.symm
    · have hb' : (getOrCreateState st).isProcessing = false := by simpa using hb
      simp [tryStartProcessing, hb'] at h

/-- Witness for C1 at concrete inputs. -/
theorem claim1_tryAdmit_at_most_one_w :
    (runAdmits (none : Option (ThreadState Nat)) [(1, "a"), (2, "b")]).count true ≤ 1
  ∧ tryStartProcessing (none : Option (ThreadState Nat)) 1 "a" =
      (true, some ({ isProcessing := true
                     currentHandler := some 1
                     currentMessageId := some "a"
                     queue := [] } : ThreadState Nat)) := by
  constructor
  · exact (claim1_tryAdmit_at_most_one none [(1, "a"), (2, "b")]).1
  · have h := (claim1_tryAdmit_at_most_one (none : Option (ThreadState Nat)) []).2.1
      1 "a" (tryStartProcessing (none : Option (ThreadState Nat)) 1 "a").2 (by decide)
    rw [show tryStartProcessing (none : Option (ThreadState Nat)) 1 "a" =
      ((tryStartProcessing (none : Option (ThreadState Nat)) 1 "a").1,
        (tryStartProcessing (none : Option (ThreadState Nat)) 1 "a").2) from rfl, h]
    decide

/-- C2: `finishProcessing` clears the busy/current-job state unconditionally
(also for an unknown key or empty queue), returns the earliest non-cancelled
entry (removing it and every cancelled entry ahead of it) or `none`, and
preserves FIFO order among the remaining non-cancelled entries. -/
theorem claim2_release_spec (st : Option (ThreadState H)) :
    isProcessingQuery (finishProcessing st).2 = false
  ∧ getCurrentHandler (finishProcessing st).2 = none
  ∧ getCurrentMessageId (finishProcessing st).2 = none
  ∧ (finishProcessing st).1 = ((queueOf st).filter isQueuedB).head?
  ∧ queueOf (finishProcessing st).2 =
      ((queueOf st).dropWhile (fun m => !isQueuedB m)).tail
  ∧ (queueOf (finishProcessing st).2).filter isQueuedB =
      ((queueOf st).filter isQueuedB).tail := by
  cases st with
  | none =>
    simp [finishProcessing, isProcessingQuery, getCurrentHandler,
      getCurrentMessageId, queueOf]
  | some s =>
    refine ⟨rfl, rfl, rfl, ?_, ?_, ?_⟩
    · show (takeNextQueued s.queue).1 = _
      rw [takeNextQueued_eq, queueOf, filter_head_eq_dropWhile_head]
      rfl
    · show (takeNextQueued s.queue).2 = _
      rw [takeNextQueued_eq]
      rfl
    · show ((takeNextQueued s.queue).2).filter isQueuedB = _
      rw [takeNextQueued_eq]
      exact filter_dropWhile_tail s.queue

/-- C3 counterexample: with one cancelled entry already in the queue,
`enqueue` returns 2 although only 1 non-cancelled entry (the new one) is in
the queue — the returned position counts cancelled entries. -/
theorem claim3_enqueue_counterexample :
    (enqueue (some { emptyThreadState with
        queue := [sampleMsg "a" MsgStatus.cancelled] } : Option (ThreadState Nat))
      (sampleMsg "b" MsgStatus.queued)).1 = 2
  ∧ ((queueOf (enqueue (some { emptyThreadState with
        queue := [sampleMsg "a" MsgStatus.cancelled] } : Option (ThreadState Nat))
      (sampleMsg "b" MsgStatus.queued)).2).filter isQueuedB).length = 1 := by
  decide

/-- C3 (amended): `enqueue` appends the new job to the tail and returns the
1-based total length of the queue, counting cancelled entries as well; this
coincides with the non-cancelled count exactly when the queue holds no
cancelled entries. -/
theorem claim3_enqueue_spec (st : Option (ThreadState H)) (m : QueuedMessage) :
    (enqueue st m).1 = (queueOf st).length + 1
  ∧ queueOf (enqueue st m).2 = queueOf st ++ [m]
  ∧ isProcessingQuery (enqueue st m).2 = isProcessingQuery st
  ∧ ((∀ x ∈ queueOf st, x.status = MsgStatus.queued) →
      m.status = MsgStatus.queued →
      (enqueue st m).1 = ((queueOf (enqueue st m).2).filter isQueuedB).length) := by
  refine ⟨?_, ?_, ?_, ?_⟩
  · cases st <;> rfl
  · cases st <;> rfl
  · cases st <;> rfl
  · intro hall hm
    have h1 : (enqueue st m).1 = (queueOf st).length + 1 := by cases st <;> rfl
    have h2 : queueOf (enqueue st m).2 = queueOf st ++ [m] := by cases st <;> rfl
    rw [h1, h2, List.filter_eq_self.mpr, List.length_append]
    · rfl
    · intro x hx
      rcases List.mem_append.mp hx with hx | hx
      · simp [isQueuedB, hall x hx]
      · simp only [List.mem_singleton] at hx
        simp [isQueuedB, hx, hm]

/-- Witness for C3's amended theorem at concrete inputs. -/
theorem claim3_enqueue_spec_w :
    (enqueue (some { emptyThreadState with
        queue := [sampleMsg "a" MsgStatus.queued] } : Option (ThreadState Nat))
      (sampleMsg "b" MsgStatus.queued)).1 =
    ((queueOf (enqueue (some { emptyThreadState with
        queue := [sampleMsg "a" MsgStatus.queued] } : Option (ThreadState Nat))
      (sampleMsg "b" MsgStatus.queued)).2).filter isQueuedB).length :=
  (claim3_enqueue_spec _ _).2.2.2 (by decide) (by decide)

/-- C4: `prioritize` returns a job exactly when a still-queued entry with the
requested id is present (`none` when missing or cancelled); the returned job
is removed from the queue, and — for queues with distinct job ids — a
subsequent `finishProcessing` cannot return the same job again. -/
theorem claim4_prioritize_no_double_dequeue (st : Option (ThreadState H))
    (mid : String) :
    ((prioritize st mid).1 = none ↔
      ¬ ∃ m ∈ queueOf st, m.id = mid ∧ m.status = MsgStatus.queued)
  ∧ (∀ j, (prioritize st mid).1 = some j →
      j.id = mid ∧ j.status = MsgStatus.queued ∧
      ∃ pre suf, queueOf st = pre ++ j :: suf ∧
        queueOf (prioritize st mid).2 = pre ++ suf)
  ∧ (((queueOf st).map (·.id)).Nodup → ∀ j, (prioritize st mid).1 = some j →
      j ∉ queueOf (prioritize st mid).2 ∧
      (finishProcessing (prioritize st mid).2).1 ≠ some j) := by
  cases st with
  | none =>
    refine ⟨by simp [prioritize, queueOf], ?_, ?_⟩
    · intro j h
      simp [prioritize] at h
    · intro _ j h
      simp [prioritize] at h
  | some s =>
    rcases hr : (extractQueued mid s.queue).1 with _ | j
    · have hall := (extractQueued_none_iff mid s.queue).mp hr
      refine ⟨?_, ?_, ?_⟩
      · apply iff_of_true
        · simp [prioritize, hr]
        · rintro ⟨m, hm, h1, h2⟩
          exact hall m hm ⟨h1, h2⟩
      · intro j h
        simp [prioritize, hr] at h
      · intro _ j h
        simp [prioritize, hr] at h
    · obtain ⟨h1, h2, pre, suf, hq, hrest, hpre⟩ :=
        extractQueued_some mid s.queue j hr
      have hpr : prioritize (some s) mid =
          (some j, some { s with queue := (extractQueued mid s.queue).2 }) := by
        simp [prioritize, hr]
      have hq2 : queueOf (prioritize (some s) mid).2 = pre ++ suf := by
        simp [hpr, queueOf, hrest]
      refine ⟨?_, ?_, ?_⟩
      · apply iff_of_false
        · simp [hpr]
        · intro hne
          refine hne ⟨j, ?_, h1, h2⟩
          show j ∈ s.queue
          rw [hq]
          exact List.mem_append.mpr (Or.inr (List.mem_cons_self _ _))
      · intro j' hj'
        rw [hpr] at hj'
        simp only [Option.some.injEq] at hj'
        subst hj'
        exact ⟨h1, h2, pre, suf, hq, hq2⟩
      · intro hnd j' hj'
        rw [hpr] at hj'
        simp only [Option.some.injEq] at hj'
        subst hj'
        have hnd' : ((pre ++ j :: suf).map (·.id)).Nodup := by
          rw [show queueOf (some s) = s.queue from rfl, hq] at hnd
          exact hnd
        have hnm : j ∉ pre ++ suf := not_mem_middle_of_nodup_ids pre suf j hnd'
        constructor
        · rw [hq2]
          exact hnm
        · intro hfin
          rw [hpr] at hfin
          have hmem : j ∈ (extractQueued mid s.queue).2 :=
            takeNextQueued_fst_mem _ _ hfin
          rw [hrest] at hmem
          exact hnm hmem

/-- Witness for C4 at concrete inputs. -/
theorem claim4_prioritize_no_double_dequeue_w :
    (prioritize (some { emptyThreadState with
        queue := [sampleMsg "a" MsgStatus.queued, sampleMsg "b" MsgStatus.queued] }
        : Option (ThreadState Nat)) "b").1 = some (sampleMsg "b" MsgStatus.queued)
  ∧ sampleMsg "b" MsgStatus.queued ∉ queueOf (prioritize
      (some { emptyThreadState with
        queue := [sampleMsg "a" MsgStatus.queued, sampleMsg "b" MsgStatus.queued] }
        : Option (ThreadState Nat)) "b").2
  ∧ (finishProcessing (prioritize (some { emptyThreadState with
        queue := [sampleMsg "a" MsgStatus.queued, sampleMsg "b" MsgStatus.queued] }
        : Option (ThreadState Nat)) "b").2).1 ≠ some (sampleMsg "b" MsgStatus.queued) := by
  have h := (claim4_prioritize_no_double_dequeue
    (some { emptyThreadState with
      queue := [sampleMsg "a" MsgStatus.queued, sampleMsg "b" MsgStatus.queued] }
      : Option (ThreadState Nat)) "b").2.2 (by decide)
    (sampleMsg "b" MsgStatus.queued) (by decide)
  exact ⟨by decide, h.1, h.2⟩

/-- C8: `cancelQueued` returns true and flips the entry's status to
`cancelled` in place (position preserved, nothing removed) exactly when a
still-queued entry with the given id exists (for queues with distinct job
ids); in every other case it returns false and leaves the state unchanged. -/
theorem claim8_cancel_spec (st : Option (ThreadState H)) (mid : String)
    (hnd : ((queueOf st).map (·.id)).Nodup) :
    ((cancelQueued st mid).1 = true ↔
      ∃ m ∈ queueOf st, m.id = mid ∧ m.status = MsgStatus.queued)
  ∧ ((cancelQueued st mid).1 = false → (cancelQueued st mid).2 = st)
  ∧ ((cancelQueued st mid).1 = true →
      isProcessingQuery (cancelQueued st mid).2 = isProcessingQuery st ∧
      getCurrentHandler (cancelQueued st mid).2 = getCurrentHandler st ∧
      getCurrentMessageId (cancelQueued st mid).2 = getCurrentMessageId st ∧
      ∃ pre m suf, queueOf st = pre ++ m :: suf ∧ m.id = mid ∧
        m.status = MsgStatus.queued ∧
        queueOf (cancelQueued st mid).2 =
          pre ++ { m with status := MsgStatus.cancelled } :: suf) := by
  cases st with
  | none =>
    refine ⟨by simp [cancelQueued, queueOf], ?_, ?_⟩
    · intro _
      rfl
    · intro h
      simp [cancelQueued] at h
  | some s =>
    refine ⟨cancelInQueue_true_iff mid s.queue hnd, ?_, ?_⟩
    · intro h
      show some { s with queue := (cancelInQueue mid s.queue).2 } = some s
      rw [cancelInQueue_false mid s.queue h]
    · intro h
      obtain ⟨pre, m, suf, hq, h1, h2, _, hres⟩ := cancelInQueue_true mid s.queue h
      exact ⟨rfl, rfl, rfl, pre, m, suf, hq, h1, h2, hres⟩

/-- Witness for C8 at concrete inputs. -/
theorem claim8_cancel_spec_w :
    (cancelQueued (some { emptyThreadState with
        queue := [sampleMsg "a" MsgStatus.cancelled, sampleMsg "b" MsgStatus.queued] }
        : Option (ThreadState Nat)) "b").1 = true
  ∧ (cancelQueued (some { emptyThreadState with
        queue := [sampleMsg "a" MsgStatus.cancelled, sampleMsg "b" MsgStatus.queued] }
        : Option (ThreadState Nat)) "c").2 =
      (some { emptyThreadState with
        queue := [sampleMsg "a" MsgStatus.cancelled, sampleMsg "b" MsgStatus.queued] }
        : Option (ThreadState Nat)) := by
  constructor
  · exact (claim8_cancel_spec (some { emptyThreadState with
      queue := [sampleMsg "a" MsgStatus.cancelled, sampleMsg "b" MsgStatus.queued] }
      : Option (ThreadState Nat)) "b" (by decide)).1.mpr
      ⟨sampleMsg "b" MsgStatus.queued, by decide, by decide, by decide⟩
  · exact (claim8_cancel_spec (some { emptyThreadState with
      queue := [sampleMsg "a" MsgStatus.cancelled, sampleMsg "b" MsgStatus.queued] }
      : Option (ThreadState Nat)) "c" (by decide)).2.1 (by decide)

/-- C10: `truncateForSlack` returns its input unchanged when it fits; for a
longer input it returns the first `max` characters followed by the
three-character ellipsis marker, so the result's length is `max + 3`. -/
theorem claim10_truncate_spec (text : Str) (max : Nat) :
    (text.length ≤ max → truncateForSlack text max = text)
  ∧ (max < text.length →
      truncateForSlack text max = text.take max ++ "...".toList ∧
      (truncateForSlack text max).length = max + 3) := by
  constructor
  · intro h
    simp [truncateForSlack, h]
  · intro h
    have hn : ¬ text.length ≤ max := not_le.mpr h
    refine ⟨by simp [truncateForSlack, hn], ?_⟩
    simp only [truncateForSlack, hn, if_false, List.length_append,
      List.length_take]
    have hmin : min max text.length = max := Nat.min_eq_left (le_of_lt h)
    rw [hmin]
    rfl

/-- Witness for C10 at concrete inputs. -/
theorem claim10_truncate_spec_w :
    truncateForSlack "hi".toList 5 = "hi".toList
  ∧ truncateForSlack "hello".toList 3 = "hel...".toList
  ∧ (truncateForSlack "hello".toList 3).length = 3 + 3 := by
  have h1 := (claim10_truncate_spec "hi".toList 5).1 (by decide)
  have h2 := (claim10_truncate_spec "hello".toList 3).2 (by decide)
  exact ⟨h1, by rw [h2.1]; decide, h2.2⟩

/-! ## Reconstruction property of splitTextForSlack (C7) -/

/-- Interleave chunks with one separator after each chunk (the separator
after the final chunk covers whitespace the final split consumed up to the
end of the text). -/
def chunksJoin : List Str → List Str → Str
  | [], _ => []
  | c :: cs, [] => c ++ chunksJoin cs []
  | c :: cs, s :: ss => c ++ (s ++ chunksJoin cs ss)

/-- Interleave chunks with separators strictly between consecutive chunks
(no trailing separator): the reconstruction shape asserted by the claim. -/
def joinSeps : List Str → List Str → Str
  | [], _ => []
  | [c], _ => c
  | c :: cs, [] => c ++ joinSeps cs []
  | c :: cs, s :: ss => c ++ (s ++ joinSeps cs ss)

/-- The claim's reconstruction property: the original text is obtained from
the chunks by re-inserting whitespace only at the `chunks.length - 1`
boundaries between consecutive chunks. -/
def reconstructsAtBoundaries (text : Str) (chunks : List Str) : Prop :=
  ∃ seps : List Str, seps.length + 1 = chunks.length
  ∧ (∀ s ∈ seps, ∀ c ∈ s, isJsWhitespace c = true)
  ∧ joinSeps chunks seps = text

theorem jsTrimStart_decomp (l : Str) :
    l = l.takeWhile isJsWhitespace ++ jsTrimStart l ∧
      ∀ c ∈ l.takeWhile isJsWhitespace, isJsWhitespace c = true :=
  ⟨(List.takeWhile_append_dropWhile (p := isJsWhitespace) (l := l)).symm,
    fun _ hc => List.mem_takeWhile_imp hc⟩

theorem jsTrimEnd_decomp (l : Str) :
    l = jsTrimEnd l ++ (l.reverse.takeWhile isJsWhitespace).reverse ∧
      ∀ c ∈ (l.reverse.takeWhile isJsWhitespace).reverse, isJsWhitespace c = true := by
  constructor
  · have h : jsTrimEnd l ++ (l.reverse.takeWhile isJsWhitespace).reverse = l := by
      rw [jsTrimEnd, ← List.reverse_append, List.takeWhile_append_dropWhile,
        List.reverse_reverse]
    exact h.symm
  · intro c hc
    exact List.mem_takeWhile_imp (List.mem_reverse.mp hc)

theorem jsTrimStart_length_le (l : Str) : (jsTrimStart l).length ≤ l.length := by
  have h := (jsTrimStart_decomp l).1
  have := congrArg List.length h
  rw [List.length_append] at this
  omega

theorem pickSplitIndex_pos (remaining : Str) (max : Nat) (hmax : 1 ≤ max) :
    1 ≤ pickSplitIndex remaining max := by
  have hsp : 1 ≤ pickSpaceIndex remaining max := by
    rw [pickSpaceIndex]
    rcases lastIdxLe remaining ' ' max with _ | j
    · exact hmax
    · by_cases hj : max ≤ 2 * j
      · simp only [if_pos hj]
        omega
      · simp only [if_neg hj]
        exact hmax
  rw [pickSplitIndex]
  rcases lastIdxLe remaining '\n' max with _ | i
  · exact hsp
  · by_cases hi : max ≤ 2 * i
    · simp only [if_pos hi]
      omega
    · simp only [if_neg hi]
      exact hsp

theorem splitGo_reconstruct (max : Nat) (hmax : 1 ≤ max) :
    ∀ fuel remaining, remaining.length ≤ fuel →
      ∃ seps : List Str, seps.length = (splitGo max fuel remaining).length
  ∧ (∀ s ∈ seps, ∀ c ∈ s, isJsWhitespace c = true)
  ∧ chunksJoin (splitGo max fuel remaining) seps = remaining := by
  intro fuel
  induction fuel with
  | zero =>
    intro remaining hlen
    have : remaining = [] := List.length_eq_zero.mp (Nat.le_zero.mp hlen)
    subst this
    exact ⟨[], rfl, by simp, rfl⟩
  | succ fuel ih =>
    intro remaining hlen
    by_cases h0 : remaining.length = 0
    · have : remaining = [] := List.length_eq_zero.mp h0
      subst this
      exact ⟨[], rfl, by simp, rfl⟩
    · by_cases hle : remaining.length ≤ max
      · refine ⟨[[]], ?_, by simp, ?_⟩
        · simp [splitGo, h0, hle]
        · simp [splitGo, h0, hle, chunksJoin]
      · have hsplit : splitGo max (fuel + 1) remaining =
            jsTrimEnd (remaining.take (pickSplitIndex remaining max)) ::
              splitGo max fuel
                (jsTrimStart (remaining.drop (pickSplitIndex remaining max))) := by
          rw [splitGo]
          simp [h0, hle]
        set si := pickSplitIndex remaining max with hsi
        have hsipos : 1 ≤ si := pickSplitIndex_pos remaining max hmax
        have hfuel : (jsTrimStart (remaining.drop si)).length ≤ fuel := by
          have h1 := jsTrimStart_length_le (remaining.drop si)
          have h2 : (remaining.drop si).length = remaining.length - si :=
            List.length_drop si remaining
          omega
        obtain ⟨seps, hslen, hsws, hsj⟩ :=
          ih (jsTrimStart (remaining.drop si)) hfuel
        obtain ⟨he1, he2⟩ := jsTrimEnd_decomp (remaining.take si)
        obtain ⟨hs1, hs2⟩ := jsTrimStart_decomp (remaining.drop si)
        refine ⟨(((remaining.take si).reverse.takeWhile isJsWhitespace).reverse ++
            (remaining.drop si).takeWhile isJsWhitespace) :: seps, ?_, ?_, ?_⟩
        · rw [hsplit]
          simp [hslen]
        · intro s hs
          rcases List.mem_cons.mp hs with rfl | hs
          · intro c hc
            rcases List.mem_append.mp hc with hc | hc
            · exact he2 c hc
            · exact hs2 c hc
          · exact hsws s hs
        · rw [hsplit]
          simp only [chunksJoin]
          rw [hsj]
          conv_rhs => rw [← List.take_append_drop si remaining]
          conv_rhs => rw [he1, hs1]
          simp [List.append_assoc]

/-- C7 counterexample: for `"aa\n  "` with limit 4 the splitter returns the
single chunk `"aa"`, and no whitespace insertion at chunk boundaries (there
are none) can reconstruct the original text — the trailing whitespace after
the final split point is lost. -/
theorem claim7_split_counterexample :
    splitTextForSlack "aa\n  ".toList 4 = ["aa".toList]
  ∧ ¬ reconstructsAtBoundaries "aa\n  ".toList
      (splitTextForSlack "aa\n  ".toList 4) := by
  have h1 : splitTextForSlack "aa\n  ".toList 4 = ["aa".toList] := by decide
  refine ⟨h1, ?_⟩
  rw [h1]
  rintro ⟨seps, hlen, _, hjoin⟩
  have hnil : seps = [] := by
    cases seps with
    | nil => rfl
    | cons a l => simp at hlen
  subst hnil
  rw [joinSeps] at hjoin
  exact absurd hjoin (by decide)

/-- C7 (amended): for every text and every positive limit, the chunks of
`splitTextForSlack` reconstruct the original text exactly when whitespace is
re-inserted at the chunk boundaries and, possibly, after the final chunk
(covering whitespace that the final split consumed up to the end of the
text); no other character is lost, reordered or duplicated. -/
theorem claim7_split_reconstruction (text : Str) (max : Nat) (hmax : 1 ≤ max) :
    ∃ seps : List Str, seps.length = (splitTextForSlack text max).length
  ∧ (∀ s ∈ seps, ∀ c ∈ s, isJsWhitespace c = true)
  ∧ chunksJoin (splitTextForSlack text max) seps = text := by
  by_cases hle : text.length ≤ max
  · refine ⟨[[]], ?_, by simp, ?_⟩
    · simp [splitTextForSlack, hle]
    · simp [splitTextForSlack, hle, chunksJoin]
  · have hs : splitTextForSlack text max = splitGo max text.length text := by
      simp [splitTextForSlack, hle]
    rw [hs]
    exact splitGo_reconstruct max hmax text.length text le_rfl

/-- Witness for C7's amended theorem at concrete inputs. -/
theorem claim7_split_reconstruction_w :
    ∃ seps : List Str, seps.length = (splitTextForSlack "aa\n  ".toList 4).length
  ∧ (∀ s ∈ seps, ∀ c ∈ s, isJsWhitespace c = true)
  ∧ chunksJoin (splitTextForSlack "aa\n  ".toList 4) seps = "aa\n  ".toList :=
  claim7_split_reconstruction "aa\n  ".toList 4 (by decide)

/-! ## The metadata-only refresh changes nothing but the time text (C5) -/

/-- Two block elements that agree except that a `mrkdwn` text has had its
time prefix replaced. -/
inductive ElemDOT (t : Str) : BlockElem → BlockElem → Prop
  | mrk (txt : Str) :
      ElemDOT t (BlockElem.mrkdwn txt) (BlockElem.mrkdwn (replaceTime t txt))
  | keep (e : BlockElem) : (∀ txt, e ≠ BlockElem.mrkdwn txt) → ElemDOT t e e

/-- Two blocks that agree except in the time text of the mrkdwn elements of
a `context` block: every non-context block is byte-identical. -/
inductive BlockDOT (t : Str) : Block → Block → Prop
  | ctx (es es' : List BlockElem) :
      List.Forall₂ (ElemDOT t) es es' →
      BlockDOT t (Block.context es) (Block.context es')
  | keep (b : Block) : (∀ es, b ≠ Block.context es) → BlockDOT t b b

theorem patchElem_dot (t : Str) (es : List BlockElem) :
    List.Forall₂ (ElemDOT t) es (es.map (patchElem t)) := by
  induction es with
  | nil => exact List.Forall₂.nil
  | cons e rest ih =>
    refine List.Forall₂.cons ?_ ih
    cases e with
    | mrkdwn txt => exact ElemDOT.mrk txt
    | button a b c => exact ElemDOT.keep _ (fun txt h => by cases h)

theorem patchBlock_dot (t : Str) (bs : List Block) :
    List.Forall₂ (BlockDOT t) bs (bs.map (patchBlock t)) := by
  induction bs with
  | nil => exact List.Forall₂.nil
  | cons b rest ih =>
    refine List.Forall₂.cons ?_ ih
    cases b with
    | context es => exact BlockDOT.ctx es _ (patchElem_dot t es)
    | sect txt => exact BlockDOT.keep _ (fun es h => by cases h)
    | actions es => exact BlockDOT.keep _ (fun es h => by cases h)

theorem dropLead_suffix (c : Char) (l : Str) : dropLead c l <:+ l := by
  cases l with
  | nil => exact List.suffix_refl []
  | cons x t =>
    by_cases hx : x = c
    · simp only [dropLead, if_pos hx]
      exact ⟨[x], rfl⟩
    · simp only [dropLead, if_neg hx]
      exact List.suffix_refl _

theorem dropWhile_suffix (p : Char → Bool) (l : Str) : l.dropWhile p <:+ l :=
  ⟨l.takeWhile p, List.takeWhile_append_dropWhile p l⟩

theorem statusTail_suffix (l : Str) (r : Str × Str)
    (h : statusTail l = some r) : r.2 <:+ l := by
  rw [statusTail.eq_def] at h
  split at h
  · cases h
    exact ⟨['경', '과'], rfl⟩
  · cases h
    exact ⟨['소', '요'], rfl⟩
  · cases h

theorem parseTimePat_suffix (txt : Str) (r : Str × Str)
    (h : parseTimePat txt = some r) : r.2 <:+ txt := by
  cases txt with
  | nil => simp [parseTimePat] at h
  | cons c cs =>
    by_cases hc : c = '_'
    · rw [parseTimePat, if_pos hc] at h
      by_cases hd : (cs.takeWhile Char.isDigit).isEmpty
      · rw [if_pos hd] at h
        cases h
      · rw [if_neg hd] at h
        have h1 := statusTail_suffix _ _ h
        have h2 := dropWhile_suffix isJsWhitespace
          (dropLead '초' (((dropLead '분' (cs.dropWhile Char.isDigit)).dropWhile
            isJsWhitespace).dropWhile Char.isDigit))
        have h3 := dropLead_suffix '초'
          (((dropLead '분' (cs.dropWhile Char.isDigit)).dropWhile
            isJsWhitespace).dropWhile Char.isDigit)
        have h4 := dropWhile_suffix Char.isDigit
          ((dropLead '분' (cs.dropWhile Char.isDigit)).dropWhile isJsWhitespace)
        have h5 := dropWhile_suffix isJsWhitespace
          (dropLead '분' (cs.dropWhile Char.isDigit))
        have h6 := dropLead_suffix '분' (cs.dropWhile Char.isDigit)
        have h7 := dropWhile_suffix Char.isDigit cs
        exact (((((((h1.trans h2).trans h3).trans h4).trans h5).trans
          h6).trans h7).trans (List.suffix_cons c cs))
    · rw [parseTimePat, if_neg hc] at h
      cases h

/-- A renderer state with a non-empty last payload and not Terminal, but
without a message handle (`responseTs = none`, as after a failed initial
post). -/
def handleLessState : RState :=
  { responseTs := none
    lastBlocks := [Block.sect "x".toList]
    lastFallbackText := []
    isCompleted := false
    timerOn := true }

/-- A Live renderer state with a message handle, used as concrete witness
input for the refresh theorem. -/
def liveState : RState :=
  { responseTs := some "1".toList
    lastBlocks := [Block.context
      [BlockElem.mrkdwn "_0초 경과, 도구 0회 호출_".toList],
      Block.sect "body".toList]
    lastFallbackText := "fb".toList
    isCompleted := false
    timerOn := true }

/-- C5 counterexample: a renderer state that has a non-empty last payload
and is not Terminal, but has no message handle (`responseTs = none`, as
after a failed initial post), sends nothing: the claim's positive case does
not hold for every such state. -/
theorem claim5_refresh_counterexample :
    updateMetadataOnly handleLessState 5 true = (handleLessState, none)
  ∧ handleLessState.isCompleted = false
  ∧ handleLessState.lastBlocks ≠ [] := by
  refine ⟨rfl, rfl, ?_⟩
  intro h
  cases h

/-- C5 (amended): `updateMetadataOnly` is a no-op (sends nothing, changes
nothing) whenever the renderer is Terminal or the last payload is empty (or
no message handle exists); in a Live state with a message handle and a
non-empty last payload it sends the unchanged fallback text together with
the last payload in which only the time text of context-block mrkdwn
elements is rewritten — every other block and element is byte-identical —
and the renderer state is unchanged (apart from timer self-disable on a
failed chat update), so any number of invocations between two renders sends
payloads with this same property.  The final conjunct pins the rewrite to
the matched time prefix: the text after the matched prefix is preserved
verbatim, and texts without a time prefix are untouched. -/
theorem claim5_refresh_spec (s : RState) (elapsed : Nat) (ok : Bool) :
    (s.isCompleted = true → updateMetadataOnly s elapsed ok = (s, none))
  ∧ (s.lastBlocks = [] → updateMetadataOnly s elapsed ok = (s, none))
  ∧ (∀ ts, s.responseTs = some ts → s.isCompleted = false → s.lastBlocks ≠ [] →
      updateMetadataOnly s elapsed ok =
        ((if ok then s else { s with timerOn := false }),
          some (Eff.update ts s.lastFallbackText
            (s.lastBlocks.map (patchBlock (formatDuration elapsed))))) ∧
      List.Forall₂ (BlockDOT (formatDuration elapsed)) s.lastBlocks
        (s.lastBlocks.map (patchBlock (formatDuration elapsed))))
  ∧ (∀ t txt, (parseTimePat txt = none → replaceTime t txt = txt) ∧
      (∀ r, parseTimePat txt = some r → r.2 <:+ txt ∧
        replaceTime t txt = '_' :: (t ++ (' ' :: (r.1 ++ r.2))))) := by
  refine ⟨?_, ?_, ?_, ?_⟩
  · intro hc
    rcases hts : s.responseTs with _ | ts
    · simp [updateMetadataOnly, hts]
    · by_cases hb : s.lastBlocks.length = 0
      · simp [updateMetadataOnly, hts, hb]
      · simp [updateMetadataOnly, hts, hb, hc]
  · intro hb
    rcases hts : s.responseTs with _ | ts
    · simp [updateMetadataOnly, hts]
    · simp [updateMetadataOnly, hts, hb]
  · intro ts hts hc hb
    have hb' : ¬ s.lastBlocks.length = 0 := by
      simpa [List.length_eq_zero] using hb
    refine ⟨?_, patchBlock_dot _ _⟩
    simp [updateMetadataOnly, hts, hb', hc]
  · intro t txt
    constructor
    · intro h
      simp [replaceTime, h]
    · intro r h
      exact ⟨parseTimePat_suffix txt r h, by simp [replaceTime, h]⟩

/-- Witness for C5's amended theorem at concrete inputs. -/
theorem claim5_refresh_spec_w :
    updateMetadataOnly liveState 125 true =
      (liveState,
        some (Eff.update "1".toList "fb".toList
          [Block.context
            [BlockElem.mrkdwn "_2분 5초 경과, 도구 0회 호출_".toList],
            Block.sect "body".toList])) := by
  have h := ((claim5_refresh_spec liveState 125 true).2.2.1 "1".toList rfl rfl
    (by decide)).1
  rw [h]
  decide

/-! ## The Terminal flag (C6) -/

/-- A renderer state that has already completed (Terminal). -/
def completedState : RState :=
  { responseTs := some "1".toList
    lastBlocks := [Block.sect "done".toList]
    lastFallbackText := "done".toList
    isCompleted := true
    timerOn := false }

/-- C6 counterexample: on a Terminal renderer (`isCompleted = true`),
`showAborted` still performs a `chat.update` — it is a render call after
Terminal that is not a no-op, so not every render call is guarded by the
flag. -/
theorem claim6_terminal_counterexample :
    completedState.isCompleted = true
  ∧ (showAborted completedState "u1".toList).2 ≠ [] := by
  exact ⟨rfl, by decide⟩

/-- C6 (amended): once `showResult` or `showError` has set `isCompleted`,
every subsequent `updateProgress` or `updateMetadataOnly` call is a no-op
that performs no chat call and leaves the renderer state unchanged; the
flag is set by `showResult`/`showError` unconditionally (their returned
state has `isCompleted = true` whatever the chat-call outcomes, the
assignment being the first statement before any asynchronous work).  The
terminal operations themselves (`showResult`, `showError`, `showAborted`)
are not guarded by the flag. -/
theorem claim6_terminal_noop (s : RState) (h : s.isCompleted = true) :
    (∀ uid tts vi text ti e tc,
      updateProgress s uid tts vi text ti e tc = (s, []))
  ∧ (∀ e ok, updateMetadataOnly s e ok = (s, none))
  ∧ (∀ s' : RState, ∀ uid vi et text d tc oks,
      ((showResult s' uid vi et text d tc oks).1).isCompleted = true)
  ∧ (∀ s' : RState, ∀ uid em ok,
      ((showError s' uid em ok).1).isCompleted = true) := by
  refine ⟨?_, ?_, ?_, ?_⟩
  · intro uid tts vi text ti e tc
    rcases hts : s.responseTs with _ | ts
    · simp [updateProgress, hts]
    · simp [updateProgress, hts, h]
  · intro e ok
    rcases hts : s.responseTs with _ | ts
    · simp [updateMetadataOnly, hts]
    · by_cases hb : s.lastBlocks.length = 0
      · simp [updateMetadataOnly, hts, hb]
      · simp [updateMetadataOnly, hts, hb, h]
  · intro s' uid vi et text d tc oks
    rcases hts : s'.responseTs with _ | ts
    · simp only [showResult, hts]
    · simp only [showResult, hts]
      repeat' split
      all_goals rfl
  · intro s' uid em ok
    rcases hts : s'.responseTs with _ | ts
    · simp only [showError, hts]
    · simp only [showError, hts]
      repeat' split
      all_goals rfl

/-- Witness for C6's amended theorem at concrete inputs. -/
theorem claim6_terminal_noop_w :
    updateProgress completedState "u".toList "t".toList "v".toList
      "x".toList none 3 1 = (completedState, [])
  ∧ updateMetadataOnly completedState 9 true = (completedState, none)
  ∧ ((showResult completedState "u".toList "v".toList "e".toList
      "x".toList 1 0 (fun _ => true)).1).isCompleted = true := by
  have h := claim6_terminal_noop completedState rfl
  exact ⟨h.1 _ _ _ _ _ _ _, h.2.1 _ _, h.2.2.1 _ _ _ _ _ _ _ _⟩

/-! ## The TURNAROUND_SUCCESS marker (C9) -/

theorem resultChunkLoop_count (ts : Str) (errM : Msg) (oks : Nat → Bool) :
    ∀ (chunks : List Str) (i : Nat),
      ((resultChunkLoop ts errM oks i chunks).1).count Eff.logSuccess = 0 := by
  intro chunks
  induction chunks with
  | nil => intro i; rfl
  | cons c rest ih =>
    intro i
    rw [resultChunkLoop]
    by_cases hi : oks i = true
    · simp [hi, List.count_cons, ih (i + 1)]
    · simp only [Bool.not_eq_true] at hi
      simp [hi, List.count_cons]

theorem resultChunkLoop_flag (ts : Str) (errM : Msg) (oks : Nat → Bool) :
    ∀ (chunks : List Str) (i : Nat),
      (resultChunkLoop ts errM oks i chunks).2 = true ↔
        ∀ k < chunks.length, oks (i + k) = true := by
  intro chunks
  induction chunks with
  | nil =>
    intro i
    simp [resultChunkLoop]
  | cons c rest ih =>
    intro i
    rw [resultChunkLoop]
    by_cases hi : oks i = true
    · simp only [hi, if_true]
      rw [ih (i + 1)]
      simp only [List.length_cons]
      constructor
      · intro hall k hk
        cases k with
        | zero => simpa using hi
        | succ k' =>
          have h2 := hall k' (by omega)
          have he : i + 1 + k' = i + (k' + 1) := by omega
          exact he ▸ h2
      · intro hall k hk
        have h2 := hall (k + 1) (by omega)
        have he : i + (k + 1) = i + 1 + k := by omega
        exact he ▸ h2
    · simp only [Bool.not_eq_true] at hi
      apply iff_of_false
      · simp [hi]
      · intro hall
        have := hall 0 (by simp)
        rw [Nat.add_zero] at this
        exact absurd this (by simp [hi])

/-- C9: when the terminal-result rendering fully succeeds (the first-chunk
`chat.update` and every additional chunk post), `showResult` emits the
`TURNAROUND_SUCCESS` marker exactly once, as the last entry of its effect
trace — strictly after every chat send; if any call in the sequence fails,
the marker is not emitted at all (the error-payload fallback runs instead
and the remaining chunks are abandoned). -/
theorem claim9_success_marker (s : RState)
    (userId versionInfo errText text : Str) (dur tc : Nat) (oks : Nat → Bool)
    (ts : Str) (hts : s.responseTs = some ts) :
    ((∀ i < (buildResultMessage userId text dur tc
        versionInfo).additionalChunks.length + 1, oks i = true) →
      ((showResult s userId versionInfo errText text dur tc oks).2).count
        Eff.logSuccess = 1 ∧
      ((showResult s userId versionInfo errText text dur tc oks).2).getLast? =
        some Eff.logSuccess)
  ∧ (¬(∀ i < (buildResultMessage userId text dur tc
        versionInfo).additionalChunks.length + 1, oks i = true) →
      ((showResult s userId versionInfo errText text dur tc oks).2).count
        Eff.logSuccess = 0) := by
  constructor
  · intro h
    have h0 : oks 0 = true := h 0 (Nat.succ_pos _)
    have hflag : (resultChunkLoop ts (buildErrorMessage userId errText) oks 1
        (buildResultMessage userId text dur tc versionInfo).additionalChunks).2
          = true := by
      rw [resultChunkLoop_flag]
      intro k hk
      exact h (1 + k) (by omega)
    constructor
    · simp only [showResult, hts, h0, if_true, hflag]
      simp [List.count_cons, List.count_append, resultChunkLoop_count]
    · simp only [showResult, hts, h0, if_true, hflag]
      rw [List.getLast?_append]
      simp
  · intro h
    by_cases h0 : oks 0 = true
    · rcases hlp : (resultChunkLoop ts (buildErrorMessage userId errText) oks 1
        (buildResultMessage userId text dur tc
          versionInfo).additionalChunks).2 with _ | _
      · simp only [showResult, hts, h0, if_true, hlp]
        simp [List.count_cons, resultChunkLoop_count]
      · exfalso
        apply h
        intro i hi
        cases i with
        | zero => exact h0
        | succ k =>
          have hall := (resultChunkLoop_flag ts (buildErrorMessage userId errText)
            oks (buildResultMessage userId text dur tc
              versionInfo).additionalChunks 1).mp hlp
          have := hall k (by omega)
          simpa [Nat.add_comm] using this
    · have h0' : oks 0 = false := by simpa using h0
      simp only [showResult, hts, h0', Bool.false_eq_true, if_false]
      simp [List.count_cons]

/-- Witness for C9 at concrete inputs. -/
theorem claim9_success_marker_w :
    ((showResult liveState "u".toList "v".toList "e".toList "hi".toList 2 1
        (fun _ => true)).2).count Eff.logSuccess = 1
  ∧ ((showResult liveState "u".toList "v".toList "e".toList "hi".toList 2 1
        (fun _ => true)).2).getLast? = some Eff.logSuccess := by
  exact (claim9_success_marker liveState "u".toList "v".toList "e".toList
    "hi".toList 2 1 (fun _ => true) "1".toList rfl).1 (by decide)

end Vibecoder
